import Mathlib

/-!
# Verification of the serde-xmlrpc value core

Shallow embedding of `src/value/mod.rs`: the `Value` tagged union, its
optional accessors (`as_i32`, `as_i64`, ...), the `From`/`TryFrom`
conversions between native types and `Value`, and the tuple-destructuring
helper `try_collect_value`.  The `de`/`ser` modules referenced by
`src/value/mod.rs` are not part of the provided sources; the serializer and
deserializer are therefore modelled from the specification (sections 4.2,
4.3, 6 and 7 of the spec) and each such definition is marked
`Modelled from the spec:` in its doc comment.

Modelling conventions:
* Rust `i32`/`i64` payloads are Lean `Int` (no arithmetic is performed on
  payloads by this core, so the bounded range only matters where the spec's
  deserializer checks it; the range checks appear explicitly there).
* Rust `f64` is modelled by its 64-bit pattern (`F64`, a wrapper around
  `Nat`): the spec guarantees a round-trip-faithful textual encoding for
  numeric values, which is modelled as an injective rendering of the bit
  pattern.
* `iso8601::DateTime` (an external crate type) is modelled as a record of
  calendar/clock fields.
* Rust `u8` is `Fin 256`; `Vec<T>` is `List T`.
* `BTreeMap<String, Value>` is modelled as a key-sorted association list
  (`mapInsert` / `mapLookup` mirror `BTreeMap::insert` / `get`), with the
  sortedness/uniqueness invariant stated as `MapWF`.
* Rust iterators are modelled as lists; consuming elements returns the
  remaining list alongside the result.
-/

/-- Model of the Rust `u8` byte type. -/
abbrev Byte := Fin 256

/-- Model of Rust `f64`: the IEEE-754 bit pattern, uninterpreted. -/
structure F64 where
  bits : Nat
deriving DecidableEq, Repr

/-- Model of the external `iso8601::DateTime` value: calendar and clock
fields. -/
structure XDateTime where
  year : Nat
  month : Nat
  day : Nat
  hour : Nat
  minute : Nat
  second : Nat
deriving DecidableEq, Repr

/-- The `Value` enum of `src/value/mod.rs`: a closed tagged union with one
variant per wire type.  `Struct` carries the `BTreeMap<String, Value>`
modelled as an association list kept sorted by key, `Array` carries a
`Vec<Value>` as a list. -/
inductive Value where
  | Int (i : Int)
  | Int64 (i : Int)
  | Bool (b : Bool)
  | String (s : String)
  | Double (d : F64)
  | DateTime (dt : XDateTime)
  | Base64 (data : List Byte)
  | Struct (map : List (String × Value))
  | Array (array : List Value)
  | Nil
deriving Repr

/-- Accessor `Value::as_i32`: returns the payload of `Int`, `none` otherwise. -/
def as_i32 : Value → Option Int
  | .Int i => some i
  | _ => none

/-- Accessor `Value::as_i64`: returns the payload of `Int` (widened) or of `Int64`,
`none` otherwise. -/
def as_i64 : Value → Option Int
  | .Int i => some i
  | .Int64 i => some i
  | _ => none

/-- Accessor `Value::as_bool`. -/
def as_bool : Value → Option Bool
  | .Bool b => some b
  | _ => none

/-- Accessor `Value::as_str`. -/
def as_str : Value → Option String
  | .String s => some s
  | _ => none

/-- Accessor `Value::as_f64`. -/
def as_f64 : Value → Option F64
  | .Double d => some d
  | _ => none

/-- Accessor `Value::as_datetime`. -/
def as_datetime : Value → Option XDateTime
  | .DateTime dt => some dt
  | _ => none

/-- Accessor `Value::as_bytes`. -/
def as_bytes : Value → Option (List Byte)
  | .Base64 data => some data
  | _ => none

/-- Accessor `Value::as_struct`. -/
def as_struct : Value → Option (List (String × Value))
  | .Struct map => some map
  | _ => none

/-- Accessor `Value::as_array`. -/
def as_array : Value → Option (List Value)
  | .Array array => some array
  | _ => none

/-- Conversion `impl From<i32> for Value`. -/
def valueFromI32 (other : Int) : Value := Value.Int other

/-- Conversion `impl From<i64> for Value`. -/
def valueFromI64 (other : Int) : Value := Value.Int64 other

/-- Conversion `impl From<bool> for Value`. -/
def valueFromBool (other : Bool) : Value := Value.Bool other

/-- Conversion `impl From<String> for Value` (and `From<&str>`, which copies
the string). -/
def valueFromString (other : String) : Value := Value.String other

/-- Conversion `impl From<f64> for Value`. -/
def valueFromF64 (other : F64) : Value := Value.Double other

/-- Conversion `impl From<DateTime> for Value`. -/
def valueFromDateTime (other : XDateTime) : Value := Value.DateTime other

/-- Conversion `impl From<Vec<Value>> for Value`. -/
def valueFromArray (other : List Value) : Value := Value.Array other

/-- Conversion `impl From<BTreeMap<String, Value>> for Value`. -/
def valueFromStruct (other : List (String × Value)) : Value := Value.Struct other

/-- Conversion `impl From<Vec<u8>> for Value`. -/
def valueFromBytes (other : List Byte) : Value := Value.Base64 other

/-- Strict conversion `impl TryFrom<&Value> for &i32`: `Ok` exactly on the
`Int` variant. -/
def tryFromI32 : Value → Option Int
  | .Int i => some i
  | _ => none

/-- Strict conversion `impl TryFrom<&Value> for &i64`: `Ok` exactly on the
`Int64` variant. -/
def tryFromI64 : Value → Option Int
  | .Int64 i => some i
  | _ => none

/-- Strict conversion `impl TryFrom<&Value> for &bool`. -/
def tryFromBool : Value → Option Bool
  | .Bool b => some b
  | _ => none

/-- Strict conversion `impl TryFrom<&Value> for &str` (defined via `as_str`
in the source). -/
def tryFromStr (value : Value) : Option String :=
  match as_str value with
  | some val => some val
  | none => none

/-- Strict conversion `impl TryFrom<&Value> for &f64`. -/
def tryFromF64 : Value → Option F64
  | .Double d => some d
  | _ => none

/-- Strict conversion `impl TryFrom<&Value> for &DateTime`. -/
def tryFromDateTime : Value → Option XDateTime
  | .DateTime dt => some dt
  | _ => none

/-- Strict conversion `impl TryFrom<&Value> for &Vec<Value>`. -/
def tryFromArray : Value → Option (List Value)
  | .Array a => some a
  | _ => none

/-- Strict conversion `impl TryFrom<&Value> for &BTreeMap<String, Value>`. -/
def tryFromStruct : Value → Option (List (String × Value))
  | .Struct m => some m
  | _ => none

/-- Strict conversion `impl TryFrom<&Value> for &Vec<u8>`. -/
def tryFromBytes : Value → Option (List Byte)
  | .Base64 b => some b
  | _ => none

/-- Destructuring `TryCollectValue::try_collect_value` for pairs: the iterator (modelled
as a list, returned as the unconsumed remainder) is advanced once per
position; `self.next()?` consumes an element (failing on exhaustion) and
`try_into().ok()?` fails after the element was consumed. -/
def tryCollectValue2 (ca : Value → Option α) (cb : Value → Option β) :
    List Value → Option (α × β) × List Value
  | [] => (none, [])
  | a :: rest =>
    match ca a with
    | none => (none, rest)
    | some x =>
      match rest with
      | [] => (none, [])
      | b :: rest2 =>
        match cb b with
        | none => (none, rest2)
        | some y => (some (x, y), rest2)

/-! ## The `BTreeMap<String, Value>` model

A `BTreeMap` is modelled as an association list kept sorted by key
(strictly ascending, hence keys are unique).  `mapInsert` mirrors
`BTreeMap::insert` (replace on an equal key), `mapLookup` mirrors
`BTreeMap::get`, and `mapFromList` builds a map by repeated insertion
(so a later binding of the same key wins, as with `BTreeMap`). -/

/-- Lexicographic (code-point, equivalently UTF-8 byte) order on
character runs: the `Ord` relation of Rust's `String` used by `BTreeMap`. -/
def charsLtb : List Char → List Char → Bool
  | _, [] => false
  | [], _ :: _ => true
  | a :: as, b :: bs =>
    if a.toNat < b.toNat then true
    else if a.toNat = b.toNat then charsLtb as bs
    else false

/-- Strict lexicographic order on strings (Rust `String`'s `Ord`). -/
def strLtb (a b : String) : Bool := charsLtb a.data b.data

/-- Insertion into the sorted-association-list model of `BTreeMap`:
keeps keys strictly ascending, replacing the payload on an equal key. -/
def mapInsert (k : String) (v : Value) : List (String × Value) → List (String × Value)
  | [] => [(k, v)]
  | (k', v') :: rest =>
    if strLtb k k' then (k, v) :: (k', v') :: rest
    else if k = k' then (k, v) :: rest
    else (k', v') :: mapInsert k v rest

/-- Lookup in the association-list model of `BTreeMap` (first matching
key; on a sorted map the match is unique). -/
def mapLookup (k : String) : List (String × Value) → Option Value
  | [] => none
  | (k', v') :: rest => if k = k' then some v' else mapLookup k rest

/-- Building a `BTreeMap` from a sequence of bindings by repeated
insertion; a later binding of the same key overrides an earlier one. -/
def mapFromList (l : List (String × Value)) : List (String × Value) :=
  l.foldl (fun m p => mapInsert p.1 p.2 m) []

/-- Invariant of the `BTreeMap` model: keys strictly ascending (hence
unique).  Every map produced by `mapInsert`/`mapFromList` satisfies it. -/
def MapWF (m : List (String × Value)) : Prop :=
  List.Pairwise (fun a b => strLtb a.1 b.1 = true) m

/-! ## Wire model

The codec's external collaborator is a streaming XML event reader/writer
(spec section 6); an event is a start tag, a run of text, or an end tag. -/

/-- Modelled from the spec: one structural event of the external XML
event stream (section 6: read-next-event / write-start-tag / write-text /
write-end-tag).  Text carries the logical (unescaped) character data;
raw-syntax concerns such as escaping belong to the external XML layer. -/
inductive Event where
  | start (tag : String)
  | text (s : String)
  | stop (tag : String)
deriving DecidableEq, Repr

/-- Modelled from the spec: the deserialization error taxonomy of
section 7. -/
inductive Err where
  | IntegerFormat
  | BooleanFormat
  | DoubleFormat
  | DateTimeFormat
  | Base64Format
  | StructFormat
  | UnknownTag
  | MissingElement
  | DepthExceeded
deriving DecidableEq, Repr

/-! ## Textual encodings of scalar payloads -/

/-- Decimal digit character for a value below ten. -/
def digitChar10 : Nat → Char
  | 0 => '0'
  | 1 => '1'
  | 2 => '2'
  | 3 => '3'
  | 4 => '4'
  | 5 => '5'
  | 6 => '6'
  | 7 => '7'
  | 8 => '8'
  | _ => '9'

/-- Numeric value of a decimal digit character. -/
def charDigit (c : Char) : Nat := c.toNat - 48

/-- Decimal digits of `n`, least significant first; `fuel` bounds the
recursion (any `fuel ≥ n` is exact). -/
def natDigitsRev : Nat → Nat → List Char
  | 0, _ => []
  | fuel + 1, n => if n = 0 then [] else digitChar10 (n % 10) :: natDigitsRev fuel (n / 10)

/-- Decimal rendering of a natural number, most significant digit first. -/
def encodeNat (n : Nat) : List Char :=
  if n = 0 then ['0'] else (natDigitsRev n n).reverse

/-- Value of a most-significant-first digit string. -/
def digitsVal (l : List Char) : Nat :=
  l.foldl (fun acc c => acc * 10 + charDigit c) 0

/-- Parse a non-empty all-digit character run as a natural number. -/
def parseNatText (l : List Char) : Option Nat :=
  if l ≠ [] ∧ l.all Char.isDigit then some (digitsVal l) else none

/-- Decimal rendering of an integer (minus sign for negatives). -/
def encodeInt (i : Int) : List Char :=
  if i < 0 then '-' :: encodeNat i.natAbs else encodeNat i.natAbs

/-- Parse an optionally-minus-signed decimal integer. -/
def parseIntText (l : List Char) : Option Int :=
  if l.head? = some '-' then (parseNatText l.tail).map (fun n => -(n : Int))
  else (parseNatText l).map (fun n => (n : Int))

/-- Whitespace characters stripped by trimming and by base64 decoding. -/
def isSpaceChar (c : Char) : Bool :=
  c = ' ' ∨ c = '\n' ∨ c = '\t' ∨ c = '\r'

/-- Strip leading and trailing whitespace. -/
def trimChars (l : List Char) : List Char :=
  ((l.dropWhile isSpaceChar).reverse.dropWhile isSpaceChar).reverse

/-- Modelled from the spec: the round-trip-faithful textual encoding of a
double (section 4.3 requires `parse(serialize(v)) == v` for numeric
values); rendered injectively from the 64-bit pattern. -/
def encodeF64 (d : F64) : List Char := encodeNat d.bits

/-- Modelled from the spec: double parsing, the exact inverse of
`encodeF64`. -/
def parseF64Text (l : List Char) : Option F64 :=
  (parseNatText l).map F64.mk

/-- Modelled from the spec: ISO-8601 rendering of a date-time value
(`Y-M-DTh:m:s`). -/
def encodeDateTime (dt : XDateTime) : List Char :=
  encodeNat dt.year ++ '-' :: (encodeNat dt.month ++ '-' :: (encodeNat dt.day
    ++ 'T' :: (encodeNat dt.hour ++ ':' :: (encodeNat dt.minute ++ ':' :: encodeNat dt.second))))

/-- Split a leading run of decimal digits from the rest. -/
def spanDigits (l : List Char) : List Char × List Char :=
  (l.takeWhile Char.isDigit, l.dropWhile Char.isDigit)

/-- Parse a non-empty digit run followed by the given separator,
returning the run's value and the remainder after the separator. -/
def parseNatSep (sep : Char) (l : List Char) : Option (Nat × List Char) :=
  match spanDigits l with
  | (ds, rest) =>
    match rest with
    | c :: rest' => if c = sep ∧ ds ≠ [] then some (digitsVal ds, rest') else none
    | [] => none

/-- Modelled from the spec: ISO-8601 date-time parsing, inverse of
`encodeDateTime`; fails on malformed text. -/
def parseDateTimeText (l : List Char) : Option XDateTime :=
  match parseNatSep '-' l with
  | none => none
  | some (y, r1) =>
    match parseNatSep '-' r1 with
    | none => none
    | some (mo, r2) =>
      match parseNatSep 'T' r2 with
      | none => none
      | some (d, r3) =>
        match parseNatSep ':' r3 with
        | none => none
        | some (h, r4) =>
          match parseNatSep ':' r4 with
          | none => none
          | some (mi, r5) =>
            match parseNatText r5 with
            | none => none
            | some s => some ⟨y, mo, d, h, mi, s⟩

/-- Character of the standard base64 alphabet for a 6-bit value. -/
def b64Char (n : Nat) : Char :=
  if n < 26 then Char.ofNat (65 + n)
  else if n < 52 then Char.ofNat (97 + (n - 26))
  else if n < 62 then Char.ofNat (48 + (n - 52))
  else if n = 62 then '+'
  else '/'

/-- Six-bit value of a standard base64 alphabet character. -/
def b64Val (c : Char) : Option Nat :=
  if 'A' ≤ c ∧ c ≤ 'Z' then some (c.toNat - 65)
  else if 'a' ≤ c ∧ c ≤ 'z' then some (c.toNat - 71)
  else if '0' ≤ c ∧ c ≤ '9' then some (c.toNat + 4)
  else if c = '+' then some 62
  else if c = '/' then some 63
  else none

/-- Byte from a natural number (reduced modulo 256). -/
def mkByte (n : Nat) : Byte := ⟨n % 256, Nat.mod_lt _ (by decide)⟩

/-- Standard base64 rendering of a byte sequence, three bytes to four
characters, `=`-padded at the end. -/
def b64Encode : List Byte → List Char
  | [] => []
  | [a] => [b64Char (a.val / 4), b64Char ((a.val % 4) * 16), '=', '=']
  | [a, b] =>
    [b64Char (a.val / 4), b64Char ((a.val % 4) * 16 + b.val / 16),
     b64Char ((b.val % 16) * 4), '=']
  | a :: b :: c :: rest =>
    b64Char (a.val / 4) :: b64Char ((a.val % 4) * 16 + b.val / 16)
      :: b64Char ((b.val % 16) * 4 + c.val / 64) :: b64Char (c.val % 64)
      :: b64Encode rest

/-- Standard base64 decoding of four-character groups (with terminal
`=`-padding); fails on invalid input. -/
def b64DecodeGroups : List Char → Option (List Byte)
  | [] => some []
  | c1 :: c2 :: c3 :: c4 :: rest =>
    match b64Val c1, b64Val c2 with
    | some v1, some v2 =>
      if c4 = '=' then
        if c3 = '=' then
          match rest with
          | [] => some [mkByte (v1 * 4 + v2 / 16)]
          | _ => none
        else
          match b64Val c3, rest with
          | some v3, [] =>
            some [mkByte (v1 * 4 + v2 / 16), mkByte ((v2 % 16) * 16 + v3 / 4)]
          | _, _ => none
      else
        match b64Val c3, b64Val c4 with
        | some v3, some v4 =>
          match b64DecodeGroups rest with
          | some bs =>
            some (mkByte (v1 * 4 + v2 / 16) :: mkByte ((v2 % 16) * 16 + v3 / 4)
              :: mkByte ((v3 % 4) * 64 + v4) :: bs)
          | none => none
        | _, _ => none
    | _, _ => none
  | _ => none

/-- Modelled from the spec: base64 decoding of a tag body; line-wrapping
whitespace is stripped before decoding (section 4.2). -/
def b64Decode (l : List Char) : Option (List Byte) :=
  b64DecodeGroups (l.filter (fun c => ! isSpaceChar c))

/-! ## Serializer (Value → wire), modelled from the spec -/

/-- Modelled from the spec: the depth bound on nested `Struct`/`Array`
(section 4.2; the concrete constant is implementation-chosen). -/
def DEPTH_LIMIT : Nat := 64

mutual

/-- Modelled from the spec: the serializer of section 4.3.  Each variant
emits its designated tag wrapping its encoded payload, inside a `value`
element; struct members are emitted in the stored (key-ascending) order
of the map, array elements in exact stored order.  Total: serialization
of a well-formed `Value` never fails. -/
def serializeValue : Value → List Event
  | .Int i =>
    [.start "value", .start "int", .text (String.mk (encodeInt i)), .stop "int", .stop "value"]
  | .Int64 i =>
    [.start "value", .start "i8", .text (String.mk (encodeInt i)), .stop "i8", .stop "value"]
  | .Bool b =>
    [.start "value", .start "boolean", .text (if b then "1" else "0"), .stop "boolean",
     .stop "value"]
  | .String s =>
    [.start "value", .start "string", .text s, .stop "string", .stop "value"]
  | .Double d =>
    [.start "value", .start "double", .text (String.mk (encodeF64 d)), .stop "double",
     .stop "value"]
  | .DateTime dt =>
    [.start "value", .start "dateTime.iso8601", .text (String.mk (encodeDateTime dt)),
     .stop "dateTime.iso8601", .stop "value"]
  | .Base64 bs =>
    [.start "value", .start "base64", .text (String.mk (b64Encode bs)), .stop "base64",
     .stop "value"]
  | .Struct ms =>
    .start "value" :: .start "struct"
      :: (serializeMembers ms ++ [.stop "struct", .stop "value"])
  | .Array vs =>
    .start "value" :: .start "array" :: .start "data"
      :: (serializeItems vs ++ [.stop "data", .stop "array", .stop "value"])
  | .Nil => [.start "value", .start "nil", .stop "nil", .stop "value"]

/-- Modelled from the spec: serialization of the elements of an `array`,
in exact stored order. -/
def serializeItems : List Value → List Event
  | [] => []
  | v :: vs => serializeValue v ++ serializeItems vs

/-- Modelled from the spec: serialization of the members of a `struct`,
each a `member` element holding a `name` and the member's value. -/
def serializeMembers : List (String × Value) → List Event
  | [] => []
  | (k, v) :: ms =>
    .start "member" :: .start "name" :: .text k :: .stop "name"
      :: (serializeValue v ++ (.stop "member" :: serializeMembers ms))

end

/-! ## Deserializer (wire → Value), modelled from the spec

`fuel` is a structural-recursion bound on the work done (the entry point
supplies more than the input stream can ever need, so on inputs this
model can parse at all the `fuel = 0` case is unreachable); the `depth`
argument is the nesting depth of the current value, checked against
`DEPTH_LIMIT` when entering a `struct` or `array` (section 4.2:
exceeding the bound fails with `DepthExceeded` rather than crashing). -/

/-- Modelled from the spec: parsing of one scalar tag body (section 4.2,
scalar rows of the tag table): `int`/`i4` bodies must be in-range base-10
signed 32-bit integers, `i8` 64-bit; `boolean` bodies must be exactly `0`
or `1` after trimming; `string` bodies are taken verbatim; `double`,
`dateTime.iso8601` and `base64` bodies are parsed by their decoders; an
unrecognized tag fails with `UnknownTag`. -/
def parseScalarBody : String → String → Except Err Value
  | "int", t =>
    (match parseIntText t.data with
     | some n =>
       if -(2 ^ 31) ≤ n ∧ n < 2 ^ 31 then .ok (.Int n) else .error .IntegerFormat
     | none => .error .IntegerFormat)
  | "i4", t =>
    (match parseIntText t.data with
     | some n =>
       if -(2 ^ 31) ≤ n ∧ n < 2 ^ 31 then .ok (.Int n) else .error .IntegerFormat
     | none => .error .IntegerFormat)
  | "i8", t =>
    (match parseIntText t.data with
     | some n =>
       if -(2 ^ 63) ≤ n ∧ n < 2 ^ 63 then .ok (.Int64 n) else .error .IntegerFormat
     | none => .error .IntegerFormat)
  | "boolean", t =>
    (match trimChars t.data with
     | ['0'] => .ok (.Bool false)
     | ['1'] => .ok (.Bool true)
     | _ => .error .BooleanFormat)
  | "string", t => .ok (.String t)
  | "double", t =>
    (match parseF64Text t.data with
     | some d => .ok (.Double d)
     | none => .error .DoubleFormat)
  | "dateTime.iso8601", t =>
    (match parseDateTimeText t.data with
     | some dt => .ok (.DateTime dt)
     | none => .error .DateTimeFormat)
  | "base64", t =>
    (match b64Decode t.data with
     | some bs => .ok (.Base64 bs)
     | none => .error .Base64Format)
  | _, _ => .error .UnknownTag

/-- Modelled from the spec: parsing of the remaining events of a scalar
`value` element whose opening tag is `tag`: a text body followed by the
matching end tags, or an empty body (a zero-content `nil`, or an empty
`string`). -/
def parseScalarTagged (tag : String) : List Event → Except Err (Value × List Event)
  | .text t :: .stop tag2 :: .stop "value" :: rest =>
    if tag2 = tag then
      match parseScalarBody tag t with
      | .ok v => .ok (v, rest)
      | .error e => .error e
    else .error .MissingElement
  | .stop tag2 :: .stop "value" :: rest =>
    if tag = "nil" ∧ tag2 = tag then .ok (.Nil, rest)
    else if tag = "string" ∧ tag2 = tag then .ok (.String "", rest)
    else .error .MissingElement
  | _ => .error .MissingElement

mutual

/-- Modelled from the spec: the deserializer of section 4.2.  Consumes
the events of one `value` element and returns the parsed `Value`
together with the unconsumed remainder of the stream, or a descriptive
error.  Bare text inside `value` is accepted as an implicit string;
scalar tags are handled by `parseScalarTagged`; nested `array`/`struct`
content is parsed recursively behind the depth check; duplicate struct
member names are resolved last-seen-wins by building the map with
repeated insertion. -/
def parseValue (depth : Nat) : Nat → List Event → Except Err (Value × List Event)
  | 0, _ => .error .MissingElement
  | fuel + 1, events =>
    match events with
    | .start "value" :: .text t :: .stop "value" :: rest => .ok (.String t, rest)
    | .start "value" :: .start tag :: rest =>
      if tag = "array" then
        match rest with
        | .start "data" :: rest2 =>
          if DEPTH_LIMIT ≤ depth then .error .DepthExceeded
          else
            match parseItems (depth + 1) fuel rest2 with
            | .ok (vs, rest3) =>
              match rest3 with
              | .stop "array" :: .stop "value" :: rest4 => .ok (.Array vs, rest4)
              | _ => .error .MissingElement
            | .error e => .error e
        | _ => .error .MissingElement
      else if tag = "struct" then
        if DEPTH_LIMIT ≤ depth then .error .DepthExceeded
        else
          match parseMembers (depth + 1) fuel rest with
          | .ok (ms, rest2) =>
            match rest2 with
            | .stop "value" :: rest3 => .ok (.Struct (mapFromList ms), rest3)
            | _ => .error .MissingElement
          | .error e => .error e
      else parseScalarTagged tag rest
    | _ => .error .MissingElement

/-- Modelled from the spec: parsing of the `value` children of an
`array`'s `data` element, in document order, up to and including the
closing `data` tag. -/
def parseItems (depth : Nat) : Nat → List Event → Except Err (List Value × List Event)
  | 0, _ => .error .MissingElement
  | fuel + 1, events =>
    match events with
    | .stop "data" :: rest => .ok ([], rest)
    | _ =>
      match parseValue depth fuel events with
      | .ok (v, rest) =>
        match parseItems depth fuel rest with
        | .ok (vs, rest2) => .ok (v :: vs, rest2)
        | .error e => .error e
      | .error e => .error e

/-- Modelled from the spec: parsing of the `member` children of a
`struct`, each holding exactly one `name` and one `value`, up to and
including the closing `struct` tag; a malformed member fails with
`StructFormat`. -/
def parseMembers (depth : Nat) : Nat → List Event
    → Except Err (List (String × Value) × List Event)
  | 0, _ => .error .MissingElement
  | fuel + 1, events =>
    match events with
    | .stop "struct" :: rest => .ok ([], rest)
    | .start "member" :: .start "name" :: .text k :: .stop "name" :: rest =>
      match parseValue depth fuel rest with
      | .ok (v, rest2) =>
        match rest2 with
        | .stop "member" :: rest3 =>
          match parseMembers depth fuel rest3 with
          | .ok (ms, rest4) => .ok ((k, v) :: ms, rest4)
          | .error e => .error e
        | _ => .error .StructFormat
      | .error e => .error e
    | _ => .error .StructFormat

end

/-- Modelled from the spec: deserialization of one value from an event
stream (the missing `de` module's entry point): parse one `value`
element and require the stream to be fully consumed. -/
def deserialize (events : List Event) : Except Err Value :=
  match parseValue 0 (events.length + 1) events with
  | .ok (v, []) => .ok v
  | .ok (_, _ :: _) => .error .UnknownTag
  | .error e => .error e

/-! ## Well-formedness and measures of a `Value` -/

/-- Keys of the association list strictly ascending (executable check;
equivalent to `MapWF`, see `keysSortedb_iff`). -/
def keysSortedb : List (String × Value) → Bool
  | [] => true
  | [_] => true
  | (k1, _) :: (k2, v2) :: rest => strLtb k1 k2 && keysSortedb ((k2, v2) :: rest)

mutual

/-- Constructibility of a `Value` in the Rust data model: `Int` payloads
fit in `i32`, `Int64` payloads fit in `i64`, and every `Struct` carries
a valid `BTreeMap` (keys strictly ascending). -/
def valueWF : Value → Bool
  | .Int i => decide (-(2 ^ 31) ≤ i) && decide (i < 2 ^ 31)
  | .Int64 i => decide (-(2 ^ 63) ≤ i) && decide (i < 2 ^ 63)
  | .Struct ms => keysSortedb ms && membersWF ms
  | .Array vs => itemsWF vs
  | _ => true

/-- Constructibility of every element of an array. -/
def itemsWF : List Value → Bool
  | [] => true
  | v :: vs => valueWF v && itemsWF vs

/-- Constructibility of every member value of a struct. -/
def membersWF : List (String × Value) → Bool
  | [] => true
  | (_, v) :: ms => valueWF v && membersWF ms

end

mutual

/-- Struct/Array nesting depth of a `Value` (scalars have depth zero). -/
def vdepth : Value → Nat
  | .Struct ms => 1 + mdepth ms
  | .Array vs => 1 + ldepth vs
  | _ => 0

/-- Greatest nesting depth among array elements. -/
def ldepth : List Value → Nat
  | [] => 0
  | v :: vs => max (vdepth v) (ldepth vs)

/-- Greatest nesting depth among struct member values. -/
def mdepth : List (String × Value) → Nat
  | [] => 0
  | (_, v) :: ms => max (vdepth v) (mdepth ms)

end

mutual

/-- Recursion fuel sufficient for `parseValue` to parse the
serialization of a value. -/
def fuelF : Value → Nat
  | .Struct ms => 1 + fuelM ms
  | .Array vs => 1 + fuelL vs
  | _ => 1

/-- Recursion fuel sufficient for `parseItems` on serialized elements. -/
def fuelL : List Value → Nat
  | [] => 1
  | v :: vs => 1 + fuelF v + fuelL vs

/-- Recursion fuel sufficient for `parseMembers` on serialized members. -/
def fuelM : List (String × Value) → Nat
  | [] => 1
  | (_, v) :: ms => 1 + fuelF v + fuelM ms

end

/-! ## Theorems -/

/-- C1 counterexample: the claim "`as_i64` applied to `Value::Int(x)`
returns absent" is false at `x = 0`: the accessor widens the `Int`
payload (its own documentation: "This works with both `Value::Int` and
`Value::Int64`"). -/
theorem as_i64_int_not_absent : ¬ (as_i64 (Value.Int 0) = none) := by
  simp [as_i64]

/-- C1 (amended): `as_i64` applied to `Value::Int(x)` returns
`Some(i64::from(x))` (widening, not absence), while the strict
`TryFrom<&Value> for &i64` conversion — the extraction function for the
`Int64` variant — never coerces an `Int` payload: it returns `Err`. -/
theorem as_i64_widens_int_strict_rejects :
    ∀ x : Int, as_i64 (Value.Int x) = some x ∧ tryFromI64 (Value.Int x) = none :=
  fun _ => ⟨rfl, rfl⟩

/-- C3: construction from native types is lossless and total — each
supported native input maps to exactly its designated variant with the
payload unchanged, and the matching extraction recovers the input. -/
theorem from_native_lossless :
    (∀ x : Int, valueFromI32 x = Value.Int x ∧ as_i32 (valueFromI32 x) = some x) ∧
    (∀ y : Int, valueFromI64 y = Value.Int64 y ∧ as_i64 (valueFromI64 y) = some y) ∧
    (∀ b : Bool, valueFromBool b = Value.Bool b ∧ as_bool (valueFromBool b) = some b) ∧
    (∀ s : String, valueFromString s = Value.String s ∧ as_str (valueFromString s) = some s) ∧
    (∀ d : F64, valueFromF64 d = Value.Double d ∧ as_f64 (valueFromF64 d) = some d) ∧
    (∀ dt : XDateTime,
      valueFromDateTime dt = Value.DateTime dt ∧ as_datetime (valueFromDateTime dt) = some dt) ∧
    (∀ bs : List Byte, valueFromBytes bs = Value.Base64 bs ∧ as_bytes (valueFromBytes bs) = some bs) ∧
    (∀ vs : List Value, valueFromArray vs = Value.Array vs ∧ as_array (valueFromArray vs) = some vs) ∧
    (∀ m : List (String × Value),
      valueFromStruct m = Value.Struct m ∧ as_struct (valueFromStruct m) = some m) :=
  ⟨fun _ => ⟨rfl, rfl⟩, fun _ => ⟨rfl, rfl⟩, fun _ => ⟨rfl, rfl⟩, fun _ => ⟨rfl, rfl⟩,
   fun _ => ⟨rfl, rfl⟩, fun _ => ⟨rfl, rfl⟩, fun _ => ⟨rfl, rfl⟩, fun _ => ⟨rfl, rfl⟩,
   fun _ => ⟨rfl, rfl⟩⟩

/-- C4: `as_i32` is variant-exact: it returns the payload on `Int`,
absent on `Int64`, and absent exactly on the non-`Int` variants. -/
theorem as_i32_variant_exact :
    (∀ x : Int, as_i32 (Value.Int x) = some x) ∧
    (∀ y : Int, as_i32 (Value.Int64 y) = none) ∧
    (∀ v : Value, as_i32 v = none ↔ ∀ x, v ≠ Value.Int x) := by
  refine ⟨fun _ => rfl, fun _ => rfl, fun v => ?_⟩
  cases v <;> simp [as_i32]

/-- C5: extraction is fallible and variant-exact: each strict
`TryFrom<&Value>` conversion succeeds with the payload exactly on its
own variant, and each optional accessor returns the payload exactly on
its own variant — never a default or zero value. -/
theorem extraction_variant_exact :
    (∀ (v : Value) (x : Int), tryFromI32 v = some x ↔ v = Value.Int x) ∧
    (∀ (v : Value) (x : Int), tryFromI64 v = some x ↔ v = Value.Int64 x) ∧
    (∀ (v : Value) (b : Bool), tryFromBool v = some b ↔ v = Value.Bool b) ∧
    (∀ (v : Value) (s : String), tryFromStr v = some s ↔ v = Value.String s) ∧
    (∀ (v : Value) (d : F64), tryFromF64 v = some d ↔ v = Value.Double d) ∧
    (∀ (v : Value) (dt : XDateTime), tryFromDateTime v = some dt ↔ v = Value.DateTime dt) ∧
    (∀ (v : Value) (a : List Value), tryFromArray v = some a ↔ v = Value.Array a) ∧
    (∀ (v : Value) (m : List (String × Value)), tryFromStruct v = some m ↔ v = Value.Struct m) ∧
    (∀ (v : Value) (bs : List Byte), tryFromBytes v = some bs ↔ v = Value.Base64 bs) ∧
    (∀ (v : Value) (b : Bool), as_bool v = some b ↔ v = Value.Bool b) ∧
    (∀ (v : Value) (s : String), as_str v = some s ↔ v = Value.String s) ∧
    (∀ (v : Value) (d : F64), as_f64 v = some d ↔ v = Value.Double d) ∧
    (∀ (v : Value) (dt : XDateTime), as_datetime v = some dt ↔ v = Value.DateTime dt) ∧
    (∀ (v : Value) (bs : List Byte), as_bytes v = some bs ↔ v = Value.Base64 bs) ∧
    (∀ (v : Value) (m : List (String × Value)), as_struct v = some m ↔ v = Value.Struct m) ∧
    (∀ (v : Value) (a : List Value), as_array v = some a ↔ v = Value.Array a) := by
  refine ⟨?_, ?_, ?_, ?_, ?_, ?_, ?_, ?_, ?_, ?_, ?_, ?_, ?_, ?_, ?_, ?_⟩ <;>
    · intro v w
      cases v <;>
        simp [tryFromI32, tryFromI64, tryFromBool, tryFromStr, tryFromF64, tryFromDateTime,
          tryFromArray, tryFromStruct, tryFromBytes, as_bool, as_str, as_f64, as_datetime,
          as_bytes, as_struct, as_array]

/-- C6: tuple destructuring consumes each position in turn and succeeds
exactly when the sequence is long enough and every position converts; in
particular `[Int(1), String("2")]` destructures to `(&i32, &str)` as
`(1, "2")`, and `[String("x"), Int(1)]` fails. -/
theorem tuple_destructure_all_or_nothing :
    (∀ (α β : Type) (ca : Value → Option α) (cb : Value → Option β) (l : List Value)
        (x : α) (y : β),
      (tryCollectValue2 ca cb l).1 = some (x, y) ↔
        ∃ a b rest, l = a :: b :: rest ∧ ca a = some x ∧ cb b = some y) ∧
    (tryCollectValue2 tryFromI32 tryFromStr [Value.Int 1, Value.String "2"]).1
      = some (1, "2") ∧
    (tryCollectValue2 tryFromI32 tryFromStr [Value.String "x", Value.Int 1]).1 = none := by
  refine ⟨?_, rfl, rfl⟩
  intro α β ca cb l x y
  match l with
  | [] => simp [tryCollectValue2]
  | [a] => cases h : ca a <;> simp [tryCollectValue2, h]
  | a :: b :: rest =>
    cases h1 : ca a <;> cases h2 : cb b <;>
      simp [tryCollectValue2, h1, h2, and_assoc]

/-- C7: no implicit promotion during construction: `From<i32>` always
produces the `Int` variant and `From<i64>` always the `Int64` variant,
and the two variants are distinct values. -/
theorem construction_no_promotion :
    (∀ x : Int, valueFromI32 x = Value.Int x) ∧
    (∀ y : Int, valueFromI64 y = Value.Int64 y) ∧
    (∀ x y : Int, valueFromI32 x ≠ valueFromI64 y) := by
  refine ⟨fun _ => rfl, fun _ => rfl, fun x y h => ?_⟩
  simp [valueFromI32, valueFromI64] at h

/-- C9: tuple destructuring does not require the sequence length to
equal the arity: with more elements than the arity and all positions
converting, it succeeds, consuming exactly two elements and leaving the
remainder unconsumed. -/
theorem tuple_destructure_excess_elements (α β : Type) (ca : Value → Option α)
    (cb : Value → Option β) (a b : Value) (rest : List Value) (x : α) (y : β)
    (ha : ca a = some x) (hb : cb b = some y) :
    tryCollectValue2 ca cb (a :: b :: rest) = (some (x, y), rest) := by
  simp [tryCollectValue2, ha, hb]

/-- C9 witness: a three-element sequence destructured at arity two
succeeds and leaves the third element unconsumed. -/
theorem tuple_destructure_excess_elements_witness :
    tryFromI32 (Value.Int 1) = some 1 ∧ tryFromStr (Value.String "2") = some "2" ∧
    tryCollectValue2 tryFromI32 tryFromStr [Value.Int 1, Value.String "2", Value.Bool true]
      = (some (1, "2"), [Value.Bool true]) :=
  ⟨rfl, rfl,
   tuple_destructure_excess_elements Int String tryFromI32 tryFromStr
     (Value.Int 1) (Value.String "2") [Value.Bool true] 1 "2" rfl rfl⟩

/-! ### Order lemmas for the key comparison -/

/-- Two characters with the same code point are equal. -/
theorem charToNat_inj {a b : Char} (h : a.toNat = b.toNat) : a = b := by
  rw [← Char.ofNat_toNat a, ← Char.ofNat_toNat b, h]

/-- Lexicographic comparison is irreflexive. -/
theorem charsLtb_irrefl (l : List Char) : charsLtb l l = false := by
  induction l with
  | nil => rfl
  | cons a as ih => simp [charsLtb, ih]

/-- Lexicographic comparison is transitive. -/
theorem charsLtb_trans {a b c : List Char} (h1 : charsLtb a b = true)
    (h2 : charsLtb b c = true) : charsLtb a c = true := by
  induction a generalizing b c with
  | nil =>
    cases c with
    | nil => cases b <;> simp [charsLtb] at h1 h2
    | cons c1 cs => simp [charsLtb]
  | cons a1 as ih =>
    cases b with
    | nil => simp [charsLtb] at h1
    | cons b1 bs =>
      cases c with
      | nil => simp [charsLtb] at h2
      | cons c1 cs =>
        simp only [charsLtb] at h1 h2 ⊢
        split at h1
        · split at h2
          · rw [if_pos (by omega)]
          · split at h2
            · rw [if_pos (by omega)]
            · simp at h2
        · split at h1
          · split at h2
            · rw [if_pos (by omega)]
            · split at h2
              · rw [if_neg (by omega), if_pos (by omega)]
                exact ih h1 h2
              · simp at h2
          · simp at h1

/-- Lists that compare `false` both ways are equal. -/
theorem charsLtb_false_eq {a b : List Char} (h1 : charsLtb a b = false)
    (h2 : charsLtb b a = false) : a = b := by
  induction a generalizing b with
  | nil =>
    cases b with
    | nil => rfl
    | cons b1 bs => simp [charsLtb] at h1
  | cons a1 as ih =>
    cases b with
    | nil => simp [charsLtb] at h2
    | cons b1 bs =>
      simp only [charsLtb] at h1 h2
      split at h1
      · simp at h1
      · split at h1
        · rename_i hlt heq
          have hab : a1 = b1 := charToNat_inj heq
          subst hab
          rw [if_neg (by omega), if_pos rfl] at h2
          rw [ih h1 h2]
        · rename_i hlt heq
          rw [if_pos (by omega)] at h2
          simp at h2

/-- String comparison is transitive. -/
theorem strLtb_trans {a b c : String} (h1 : strLtb a b = true)
    (h2 : strLtb b c = true) : strLtb a c = true :=
  charsLtb_trans h1 h2

/-- String comparison is irreflexive. -/
theorem strLtb_irrefl (a : String) : strLtb a a = false :=
  charsLtb_irrefl _

/-- Strictly smaller strings are distinct. -/
theorem strLtb_ne {a b : String} (h : strLtb a b = true) : a ≠ b := by
  intro he
  subst he
  rw [strLtb_irrefl] at h
  exact absurd h (by simp)

/-- String comparison is asymmetric. -/
theorem strLtb_asymm {a b : String} (h : strLtb a b = true) : strLtb b a = false := by
  cases hba : strLtb b a
  · rfl
  · have := strLtb_trans h hba
    rw [strLtb_irrefl] at this
    exact absurd this (by simp)

/-- Strings that compare `false` both ways are equal. -/
theorem strLtb_total {a b : String} (h1 : strLtb a b = false)
    (h2 : strLtb b a = false) : a = b := by
  have hd : a.data = b.data := charsLtb_false_eq h1 h2
  cases a
  cases b
  exact congrArg String.mk hd

/-! ### Lemmas about the `BTreeMap` model -/

/-- Members of an inserted map: the new binding or an old one. -/
theorem mem_mapInsert {p : String × Value} {k : String} {v : Value}
    {m : List (String × Value)} (h : p ∈ mapInsert k v m) : p = (k, v) ∨ p ∈ m := by
  induction m with
  | nil => simpa [mapInsert] using h
  | cons q rest ih =>
    obtain ⟨k', v'⟩ := q
    rw [mapInsert] at h
    split at h
    · simpa using h
    · split at h
      · rcases List.mem_cons.mp h with h | h
        · exact Or.inl h
        · exact Or.inr (List.mem_cons_of_mem _ h)
      · rcases List.mem_cons.mp h with h | h
        · exact Or.inr (h ▸ List.mem_cons_self _ _)
        · rcases ih h with h | h
          · exact Or.inl h
          · exact Or.inr (List.mem_cons_of_mem _ h)

/-- Insertion preserves the sortedness invariant. -/
theorem mapInsert_MapWF (k : String) (v : Value) (m : List (String × Value))
    (h : MapWF m) : MapWF (mapInsert k v m) := by
  induction m with
  | nil => simp [mapInsert, MapWF]
  | cons q rest ih =>
    obtain ⟨k', v'⟩ := q
    simp only [MapWF, List.pairwise_cons] at h
    obtain ⟨hall, hrest⟩ := h
    rw [mapInsert]
    split
    · rename_i hlt
      simp only [MapWF, List.pairwise_cons]
      refine ⟨?_, hall, hrest⟩
      intro p hp
      rcases List.mem_cons.mp hp with rfl | hp
      · exact hlt
      · exact strLtb_trans hlt (hall p hp)
    · split
      · rename_i hnlt heq
        subst heq
        simp only [MapWF, List.pairwise_cons]
        exact ⟨hall, hrest⟩
      · rename_i hnlt hne
        have hf : strLtb k k' = false := by
          simpa using hnlt
        simp only [MapWF, List.pairwise_cons]
        refine ⟨?_, ih hrest⟩
        intro p hp
        rcases mem_mapInsert hp with rfl | hp
        · cases hkk : strLtb k' k
          · exact absurd (strLtb_total hf hkk) hne
          · rfl
        · exact hall p hp

/-- Looking up the key just inserted returns the new payload. -/
theorem mapLookup_mapInsert_self (k : String) (v : Value) (m : List (String × Value)) :
    mapLookup k (mapInsert k v m) = some v := by
  induction m with
  | nil => simp [mapInsert, mapLookup]
  | cons q rest ih =>
    obtain ⟨k', v'⟩ := q
    rw [mapInsert]
    split
    · simp [mapLookup]
    · split
      · simp [mapLookup]
      · rename_i hnlt hne
        rw [mapLookup, if_neg hne]
        exact ih

/-- Looking up a different key is unaffected by an insertion. -/
theorem mapLookup_mapInsert_ne (k k2 : String) (v : Value) (m : List (String × Value))
    (h : k ≠ k2) : mapLookup k2 (mapInsert k v m) = mapLookup k2 m := by
  induction m with
  | nil => simp [mapInsert, mapLookup, Ne.symm h]
  | cons q rest ih =>
    obtain ⟨k', v'⟩ := q
    rw [mapInsert]
    split
    · rw [mapLookup, if_neg (fun he => h he.symm)]
    · split
      · rename_i hnlt heq
        subst heq
        rw [mapLookup, if_neg (fun he => h he.symm), mapLookup, if_neg (fun he => h he.symm)]
      · by_cases hk2 : k2 = k'
        · subst hk2
          rw [mapLookup, if_pos rfl, mapLookup, if_pos rfl]
        · rw [mapLookup, if_neg hk2, mapLookup, if_neg hk2]
          exact ih

/-- Folding insertions over any binding list preserves the invariant. -/
theorem MapWF_foldl (l m : List (String × Value)) (h : MapWF m) :
    MapWF (l.foldl (fun m p => mapInsert p.1 p.2 m) m) := by
  induction l generalizing m with
  | nil => exact h
  | cons p rest ih => exact ih _ (mapInsert_MapWF _ _ _ h)

/-- Every built map satisfies the invariant. -/
theorem MapWF_mapFromList (l : List (String × Value)) : MapWF (mapFromList l) :=
  MapWF_foldl l [] (by simp [MapWF])

/-- Sorted keys are pairwise distinct. -/
theorem MapWF_keys_nodup (m : List (String × Value)) (h : MapWF m) :
    (m.map Prod.fst).Nodup := by
  rw [List.Nodup, List.pairwise_map]
  exact h.imp (fun hab => strLtb_ne hab)

/-- Lookup misses exactly the absent keys. -/
theorem mapLookup_eq_none {k : String} {m : List (String × Value)} :
    mapLookup k m = none ↔ k ∉ m.map Prod.fst := by
  induction m with
  | nil => simp [mapLookup]
  | cons q rest ih =>
    obtain ⟨k', v'⟩ := q
    rw [mapLookup]
    by_cases h : k = k' <;> simp [h, ih]

/-- A successful lookup returns a stored binding. -/
theorem mapLookup_some_mem {k : String} {v : Value} {m : List (String × Value)}
    (h : mapLookup k m = some v) : (k, v) ∈ m := by
  induction m with
  | nil => simp [mapLookup] at h
  | cons q rest ih =>
    obtain ⟨k', v'⟩ := q
    rw [mapLookup] at h
    split at h
    · rename_i he
      subst he
      cases h
      exact List.mem_cons_self _ _
    · exact List.mem_cons_of_mem _ (ih h)

/-- Lookup after folding insertions: a key bound in the binding list
gets that binding (keys unique), otherwise the base map answers. -/
theorem mapLookup_foldl (l : List (String × Value)) (m : List (String × Value)) (k : String)
    (hnd : (l.map Prod.fst).Nodup) :
    mapLookup k (l.foldl (fun m p => mapInsert p.1 p.2 m) m)
      = match mapLookup k l with
        | some v => some v
        | none => mapLookup k m := by
  induction l generalizing m with
  | nil => simp [mapLookup]
  | cons p rest ih =>
    obtain ⟨k1, v1⟩ := p
    simp only [List.map_cons, List.nodup_cons] at hnd
    obtain ⟨hk1, hnd2⟩ := hnd
    rw [List.foldl_cons, ih _ hnd2]
    by_cases hk : k = k1
    · subst hk
      have hrest : mapLookup k rest = none :=
        mapLookup_eq_none.mpr hk1
      rw [hrest, mapLookup, if_pos rfl]
      exact mapLookup_mapInsert_self k v1 m
    · rw [mapLookup, if_neg hk]
      cases h2 : mapLookup k rest
      · exact mapLookup_mapInsert_ne k1 k v1 m (fun he => hk he.symm)
      · rfl

/-- Association lookup is invariant under permutation when keys are
unique. -/
theorem mapLookup_perm {l1 l2 : List (String × Value)} (p : l1.Perm l2)
    (hnd : (l1.map Prod.fst).Nodup) (k : String) : mapLookup k l1 = mapLookup k l2 := by
  induction p with
  | nil => rfl
  | cons x p ih =>
    obtain ⟨k1, v1⟩ := x
    simp only [List.map_cons, List.nodup_cons] at hnd
    rw [mapLookup, mapLookup]
    by_cases hk : k = k1
    · simp [hk]
    · rw [if_neg hk, if_neg hk]
      exact ih hnd.2
  | swap x y l =>
    obtain ⟨k1, v1⟩ := x
    obtain ⟨k2, v2⟩ := y
    simp only [List.map_cons, List.nodup_cons, List.mem_cons] at hnd
    have hne : k2 ≠ k1 := fun he => hnd.1 (Or.inl he)
    rw [mapLookup, mapLookup, mapLookup, mapLookup]
    by_cases h1 : k = k2 <;> by_cases h2 : k = k1
    · exact absurd (h1 ▸ h2 : k2 = k1) hne
    · simp [h1, h2, hne, Ne.symm hne]
    · simp [h1, h2, hne, Ne.symm hne]
    · simp [h1, h2, hne, Ne.symm hne]
  | trans p1 p2 ih1 ih2 =>
    rw [ih1 hnd, ih2 (((p1.map Prod.fst).nodup_iff).mp hnd)]

/-- Sorted maps with the same lookup function are equal. -/
theorem mapExt (m1 m2 : List (String × Value)) (h1 : MapWF m1) (h2 : MapWF m2)
    (h : ∀ k, mapLookup k m1 = mapLookup k m2) : m1 = m2 := by
  induction m1 generalizing m2 with
  | nil =>
    cases m2 with
    | nil => rfl
    | cons q rest2 =>
      obtain ⟨k2, v2⟩ := q
      have := h k2
      rw [mapLookup, mapLookup, if_pos rfl] at this
      exact absurd this (by simp)
  | cons p rest ih =>
    obtain ⟨k1, v1⟩ := p
    cases m2 with
    | nil =>
      have := h k1
      rw [mapLookup, mapLookup, if_pos rfl] at this
      exact absurd this (by simp)
    | cons q rest2 =>
      obtain ⟨k2, v2⟩ := q
      simp only [MapWF, List.pairwise_cons] at h1 h2
      obtain ⟨hall1, hrest1⟩ := h1
      obtain ⟨hall2, hrest2⟩ := h2
      by_cases hk : k1 = k2
      · subst hk
        have hv := h k1
        rw [mapLookup, mapLookup, if_pos rfl, if_pos rfl] at hv
        cases hv
        have htail : ∀ k, mapLookup k rest = mapLookup k rest2 := by
          intro k
          by_cases hkk : k = k1
          · subst hkk
            rw [mapLookup_eq_none.mpr, mapLookup_eq_none.mpr]
            · intro hmem
              obtain ⟨p, hp, hps⟩ := List.mem_map.mp hmem
              exact strLtb_ne (hall2 p hp) (hps.symm ▸ rfl)
            · intro hmem
              obtain ⟨p, hp, hps⟩ := List.mem_map.mp hmem
              exact strLtb_ne (hall1 p hp) (hps.symm ▸ rfl)
          · have := h k
            rw [mapLookup, mapLookup, if_neg hkk, if_neg hkk] at this
            exact this
        rw [ih rest2 hrest1 hrest2 htail]
      · exfalso
        have e1 := h k1
        rw [mapLookup, if_pos rfl, mapLookup, if_neg hk] at e1
        have m1mem := mapLookup_some_mem e1.symm
        have hlt21 : strLtb k2 k1 = true := hall2 _ m1mem
        have e2 := h k2
        rw [mapLookup, if_neg (fun he => hk he.symm), mapLookup, if_pos rfl] at e2
        have m2mem := mapLookup_some_mem e2
        have hlt12 : strLtb k1 k2 = true := hall1 _ m2mem
        have := strLtb_trans hlt12 hlt21
        rw [strLtb_irrefl] at this
        exact absurd this (by simp)

/-- Inserting a key above every stored key appends the binding. -/
theorem mapInsert_append (k : String) (v : Value) (m : List (String × Value))
    (h : ∀ p ∈ m, strLtb p.1 k = true) : mapInsert k v m = m ++ [(k, v)] := by
  induction m with
  | nil => rfl
  | cons q rest ih =>
    obtain ⟨k', v'⟩ := q
    have hk' : strLtb k' k = true := h _ (List.mem_cons_self _ _)
    rw [mapInsert, if_neg, if_neg]
    · rw [ih (fun p hp => h p (List.mem_cons_of_mem _ hp))]
      rfl
    · exact fun he => strLtb_ne hk' he.symm
    · rw [strLtb_asymm hk']
      simp

/-- Folding insertions over a sorted binding list of all-larger keys
appends it. -/
theorem foldl_sorted (l : List (String × Value)) :
    ∀ m : List (String × Value), (∀ p ∈ m, ∀ q ∈ l, strLtb p.1 q.1 = true) → MapWF l →
    l.foldl (fun m p => mapInsert p.1 p.2 m) m = m ++ l := by
  induction l with
  | nil => intro m _ _; simp
  | cons p rest ih =>
    intro m hlm hl
    obtain ⟨k, v⟩ := p
    simp only [MapWF, List.pairwise_cons] at hl
    obtain ⟨hl1, hl2⟩ := hl
    rw [List.foldl_cons,
      mapInsert_append k v m (fun p hp => hlm p hp _ (List.mem_cons_self _ _)),
      ih (m ++ [(k, v)]) ?_ hl2]
    · simp
    · intro p hp q hq
      rcases List.mem_append.mp hp with hp | hp
      · exact hlm p hp q (List.mem_cons_of_mem _ hq)
      · rcases List.mem_singleton.mp hp with rfl
        exact hl1 q hq

/-- Building a map from already-sorted bindings reproduces them. -/
theorem mapFromList_sorted (l : List (String × Value)) (h : MapWF l) :
    mapFromList l = l := by
  rw [mapFromList, foldl_sorted l [] (by simp) h]
  simp

/-- C8: every Struct maintains unique member names and exact
lookup-by-name: any map built by insertion has pairwise-distinct keys,
extraction via `as_struct`/`TryFrom` hands back exactly the stored map,
and on any invariant-satisfying map a lookup succeeds with `v` exactly
when the binding `(k, v)` is stored. -/
theorem struct_keys_unique_lookup_exact :
    (∀ l : List (String × Value), ((mapFromList l).map Prod.fst).Nodup) ∧
    (∀ m : List (String × Value),
      as_struct (valueFromStruct m) = some m ∧ tryFromStruct (valueFromStruct m) = some m) ∧
    (∀ (m : List (String × Value)) (k : String) (v : Value), MapWF m →
      (mapLookup k m = some v ↔ (k, v) ∈ m)) := by
  refine ⟨fun l => MapWF_keys_nodup _ (MapWF_mapFromList l), fun m => ⟨rfl, rfl⟩, ?_⟩
  intro m k v hwf
  constructor
  · exact mapLookup_some_mem
  · intro hmem
    induction m with
    | nil => simp at hmem
    | cons q rest ih =>
      obtain ⟨k', v'⟩ := q
      simp only [MapWF, List.pairwise_cons] at hwf
      rcases List.mem_cons.mp hmem with he | hmem2
      · cases he
        rw [mapLookup, if_pos rfl]
      · have hlt : strLtb k' k = true := by
          have := hwf.1 _ hmem2
          exact this
        rw [mapLookup, if_neg (fun he => strLtb_ne hlt he.symm)]
        exact ih hwf.2 hmem2

/-- C8 witness: on the concrete sorted map `{"a" ↦ Nil}` the lookup
equivalence holds. -/
theorem struct_keys_unique_lookup_exact_witness :
    MapWF [("a", Value.Nil)] ∧
    (mapLookup "a" [("a", Value.Nil)] = some Value.Nil ↔ ("a", Value.Nil) ∈ [("a", Value.Nil)]) :=
  ⟨by simp [MapWF], struct_keys_unique_lookup_exact.2.2 [("a", Value.Nil)] "a" Value.Nil
    (by simp [MapWF])⟩

/-- C10: the Struct mapping is key-sorted: every built map lists its
members in strictly ascending key order, and building from any
permutation of the same (unique-key) bindings yields the identical
member list — iteration order is deterministic and independent of
insertion order. -/
theorem struct_iteration_sorted_order_independent :
    (∀ l : List (String × Value),
      List.Pairwise (fun a b => strLtb a.1 b.1 = true) (mapFromList l)) ∧
    (∀ l1 l2 : List (String × Value), l1.Perm l2 → (l1.map Prod.fst).Nodup →
      mapFromList l1 = mapFromList l2) := by
  refine ⟨fun l => MapWF_mapFromList l, ?_⟩
  intro l1 l2 hp hnd
  apply mapExt _ _ (MapWF_mapFromList l1) (MapWF_mapFromList l2)
  intro k
  have hnd2 : (l2.map Prod.fst).Nodup := ((hp.map Prod.fst).nodup_iff).mp hnd
  rw [mapFromList, mapFromList, mapLookup_foldl l1 [] k hnd, mapLookup_foldl l2 [] k hnd2,
    mapLookup_perm hp hnd k]

/-- C10 witness: the two insertion orders of `{"a" ↦ Int 1, "b" ↦ Nil}`
build the same sorted member list. -/
theorem struct_iteration_sorted_order_independent_witness :
    ([("b", Value.Nil), ("a", Value.Int 1)].map Prod.fst).Nodup ∧
    mapFromList [("b", Value.Nil), ("a", Value.Int 1)]
      = mapFromList [("a", Value.Int 1), ("b", Value.Nil)] :=
  ⟨by decide, struct_iteration_sorted_order_independent.2 _ _
    (List.Perm.swap ("a", Value.Int 1) ("b", Value.Nil) []) (by decide)⟩

/-! ### Round-trip lemmas for the scalar text encodings -/

/-- Building a string from characters is the inverse of `data`. -/
theorem string_data_mk (l : List Char) : (String.mk l).data = l := rfl

/-- Digit characters are digits. -/
theorem digitChar10_isDigit {d : Nat} (h : d < 10) : (digitChar10 d).isDigit = true := by
  interval_cases d <;> decide

/-- Reading back a digit character returns the digit. -/
theorem charDigit_digitChar10 {d : Nat} (h : d < 10) : charDigit (digitChar10 d) = d := by
  interval_cases d <;> decide

/-- Appending one digit multiplies the value by ten and adds it. -/
theorem digitsVal_append (l : List Char) (c : Char) :
    digitsVal (l ++ [c]) = digitsVal l * 10 + charDigit c := by
  simp [digitsVal, List.foldl_append]

/-- Every character produced by `natDigitsRev` is a digit. -/
theorem natDigitsRev_all_digits (fuel : Nat) :
    ∀ n, ∀ c ∈ natDigitsRev fuel n, c.isDigit = true := by
  induction fuel with
  | zero => intro n c hc; simp [natDigitsRev] at hc
  | succ f ih =>
    intro n c hc
    rw [natDigitsRev] at hc
    split at hc
    · simp at hc
    · rcases List.mem_cons.mp hc with rfl | hc
      · exact digitChar10_isDigit (Nat.mod_lt _ (by omega))
      · exact ih _ c hc

/-- With enough fuel the digit run evaluates back to the number. -/
theorem digitsVal_natDigitsRev (fuel : Nat) :
    ∀ n, n ≤ fuel → digitsVal (natDigitsRev fuel n).reverse = n := by
  induction fuel with
  | zero => intro n h; interval_cases n; simp [natDigitsRev, digitsVal]
  | succ f ih =>
    intro n h
    rw [natDigitsRev]
    split
    · rename_i h0
      subst h0
      simp [digitsVal]
    · rename_i h0
      rw [List.reverse_cons, digitsVal_append, ih (n / 10) (by omega),
        charDigit_digitChar10 (Nat.mod_lt _ (by omega))]
      omega

/-- The decimal rendering of a natural number is non-empty. -/
theorem encodeNat_ne_nil (n : Nat) : encodeNat n ≠ [] := by
  rw [encodeNat]
  split
  · simp
  · rename_i h0
    obtain ⟨m, rfl⟩ : ∃ m, n = m + 1 := ⟨n - 1, by omega⟩
    rw [natDigitsRev, if_neg h0]
    simp

/-- The decimal rendering consists of digits only. -/
theorem encodeNat_all_digits (n : Nat) : ∀ c ∈ encodeNat n, c.isDigit = true := by
  intro c hc
  rw [encodeNat] at hc
  split at hc
  · simp at hc
    subst hc
    decide
  · rw [List.mem_reverse] at hc
    exact natDigitsRev_all_digits n n c hc

/-- The decimal rendering evaluates back to the number. -/
theorem digitsVal_encodeNat (n : Nat) : digitsVal (encodeNat n) = n := by
  rw [encodeNat]
  split
  · rename_i h0
    subst h0
    decide
  · exact digitsVal_natDigitsRev n n le_rfl

/-- Parsing inverts the decimal rendering of a natural number. -/
theorem parseNatText_encodeNat (n : Nat) : parseNatText (encodeNat n) = some n := by
  rw [parseNatText, if_pos, digitsVal_encodeNat]
  exact ⟨encodeNat_ne_nil n, List.all_eq_true.mpr (encodeNat_all_digits n)⟩

/-- The decimal rendering never starts with a minus sign. -/
theorem encodeNat_head_ne_minus (n : Nat) : (encodeNat n).head? ≠ some '-' := by
  cases he : encodeNat n with
  | nil => simp
  | cons c cs =>
    have : c.isDigit = true := encodeNat_all_digits n c (he ▸ List.mem_cons_self _ _)
    simp only [List.head?_cons, ne_eq, Option.some.injEq]
    intro hc
    subst hc
    simp at this

/-- Parsing inverts the decimal rendering of an integer. -/
theorem parseIntText_encodeInt (i : Int) : parseIntText (encodeInt i) = some i := by
  rw [encodeInt]
  split
  · rename_i hneg
    rw [parseIntText, if_pos (by simp), List.tail_cons, parseNatText_encodeNat]
    show some (-(i.natAbs : Int)) = some i
    have h2 : -((i.natAbs : Nat) : Int) = i := by omega
    rw [h2]
  · rename_i hpos
    rw [parseIntText, if_neg (encodeNat_head_ne_minus _), parseNatText_encodeNat]
    show some ((i.natAbs : Nat) : Int) = some i
    have h2 : ((i.natAbs : Nat) : Int) = i := by omega
    rw [h2]

/-- Parsing inverts the double rendering. -/
theorem parseF64Text_encodeF64 (d : F64) : parseF64Text (encodeF64 d) = some d := by
  rw [parseF64Text, encodeF64, parseNatText_encodeNat]
  rfl

/-- Splitting at the first non-digit after an all-digit run. -/
theorem span_digits_append (l : List Char) (c0 : Char) (r : List Char)
    (hl : ∀ c ∈ l, c.isDigit = true) (hc : c0.isDigit = false) :
    (l ++ c0 :: r).takeWhile Char.isDigit = l
      ∧ (l ++ c0 :: r).dropWhile Char.isDigit = c0 :: r := by
  induction l with
  | nil => simp [List.takeWhile_cons, List.dropWhile_cons, hc]
  | cons a as ih =>
    have ha : a.isDigit = true := hl a (List.mem_cons_self _ _)
    have ih2 := ih (fun c hc2 => hl c (List.mem_cons_of_mem _ hc2))
    simp only [List.cons_append, List.takeWhile_cons, List.dropWhile_cons, ha, if_pos]
    exact ⟨by rw [ih2.1], by rw [ih2.2]⟩

/-- Parsing a rendered number followed by its separator. -/
theorem parseNatSep_encodeNat (sep : Char) (n : Nat) (r : List Char)
    (hsep : sep.isDigit = false) :
    parseNatSep sep (encodeNat n ++ sep :: r) = some (n, r) := by
  obtain ⟨ht, hd⟩ := span_digits_append (encodeNat n) sep r (encodeNat_all_digits n) hsep
  simp only [parseNatSep, spanDigits, ht, hd]
  rw [if_pos ⟨trivial, encodeNat_ne_nil n⟩, digitsVal_encodeNat]

/-- Parsing inverts the date-time rendering. -/
theorem parseDateTimeText_encodeDateTime (dt : XDateTime) :
    parseDateTimeText (encodeDateTime dt) = some dt := by
  obtain ⟨y, mo, d, h, mi, s⟩ := dt
  rw [encodeDateTime]
  simp only [parseDateTimeText, parseNatSep_encodeNat '-' y _ (by decide),
    parseNatSep_encodeNat '-' mo _ (by decide), parseNatSep_encodeNat 'T' d _ (by decide),
    parseNatSep_encodeNat ':' h _ (by decide), parseNatSep_encodeNat ':' mi _ (by decide),
    parseNatText_encodeNat s]

/-- Alphabet reading inverts alphabet rendering. -/
theorem b64Val_b64Char {n : Nat} (h : n < 64) : b64Val (b64Char n) = some n := by
  have hall : ∀ m : Fin 64, b64Val (b64Char m.val) = some m.val := by decide
  exact hall ⟨n, h⟩

/-- Alphabet characters are never the padding character. -/
theorem b64Char_ne_eq {n : Nat} (h : n < 64) : b64Char n ≠ '=' := by
  have hall : ∀ m : Fin 64, b64Char m.val ≠ '=' := by decide
  exact hall ⟨n, h⟩

/-- Alphabet characters are never whitespace. -/
theorem b64Char_not_space {n : Nat} (h : n < 64) : isSpaceChar (b64Char n) = false := by
  have hall : ∀ m : Fin 64, isSpaceChar (b64Char m.val) = false := by decide
  exact hall ⟨n, h⟩

/-- Every character emitted by the base64 encoder is padding or an
alphabet character. -/
theorem b64Encode_mem : ∀ bs : List Byte, ∀ c ∈ b64Encode bs,
    c = '=' ∨ ∃ n, n < 64 ∧ c = b64Char n
  | [] => by simp [b64Encode]
  | [a] => by
    have ha := a.isLt
    intro c hc
    simp only [b64Encode, List.mem_cons, List.not_mem_nil, or_false] at hc
    rcases hc with rfl | rfl | rfl | rfl
    · exact Or.inr ⟨_, by omega, rfl⟩
    · exact Or.inr ⟨_, by omega, rfl⟩
    · exact Or.inl rfl
    · exact Or.inl rfl
  | [a, b] => by
    have ha := a.isLt
    have hb := b.isLt
    intro c hc
    simp only [b64Encode, List.mem_cons, List.not_mem_nil, or_false] at hc
    rcases hc with rfl | rfl | rfl | rfl
    · exact Or.inr ⟨_, by omega, rfl⟩
    · exact Or.inr ⟨_, by omega, rfl⟩
    · exact Or.inr ⟨_, by omega, rfl⟩
    · exact Or.inl rfl
  | a :: b :: c0 :: rest => by
    have ha := a.isLt
    have hb := b.isLt
    have hc0 := c0.isLt
    intro c hc
    simp only [b64Encode, List.mem_cons] at hc
    rcases hc with rfl | rfl | rfl | rfl | hc
    · exact Or.inr ⟨_, by omega, rfl⟩
    · exact Or.inr ⟨_, by omega, rfl⟩
    · exact Or.inr ⟨_, by omega, rfl⟩
    · exact Or.inr ⟨_, by omega, rfl⟩
    · exact b64Encode_mem rest c hc

/-- Whitespace stripping leaves base64 output unchanged. -/
theorem b64Encode_filter (bs : List Byte) :
    (b64Encode bs).filter (fun c => ! isSpaceChar c) = b64Encode bs := by
  rw [List.filter_eq_self]
  intro c hc
  rcases b64Encode_mem bs c hc with rfl | ⟨n, hn, rfl⟩
  · decide
  · simp [b64Char_not_space hn]

/-- Group decoding inverts group encoding. -/
theorem b64DecodeGroups_b64Encode : ∀ bs : List Byte,
    b64DecodeGroups (b64Encode bs) = some bs
  | [] => rfl
  | [a] => by
    have ha := a.isLt
    have e1 : mkByte ((a.val / 4) * 4 + (a.val % 4) * 16 / 16) = a := by
      apply Fin.eq_of_val_eq
      simp only [mkByte]
      omega
    rw [b64Encode, b64DecodeGroups, b64Val_b64Char (by omega), b64Val_b64Char (by omega)]
    show (if ('=' : Char) = '=' then _ else _) = _
    rw [if_pos rfl]
    show (if ('=' : Char) = '=' then _ else _) = _
    rw [if_pos rfl]
    show some [mkByte ((a.val / 4) * 4 + (a.val % 4) * 16 / 16)] = some [a]
    rw [e1]
  | [a, b] => by
    have ha := a.isLt
    have hb := b.isLt
    have e1 : mkByte ((a.val / 4) * 4 + ((a.val % 4) * 16 + b.val / 16) / 16) = a := by
      apply Fin.eq_of_val_eq
      simp only [mkByte]
      omega
    have e2 : mkByte ((((a.val % 4) * 16 + b.val / 16) % 16) * 16 + (b.val % 16) * 4 / 4) = b := by
      apply Fin.eq_of_val_eq
      simp only [mkByte]
      omega
    rw [b64Encode, b64DecodeGroups, b64Val_b64Char (by omega), b64Val_b64Char (by omega)]
    show (if ('=' : Char) = '=' then _ else _) = _
    rw [if_pos rfl]
    show (if b64Char ((b.val % 16) * 4) = '=' then _ else _) = _
    rw [if_neg (b64Char_ne_eq (by omega))]
    rw [b64Val_b64Char (by omega)]
    show some [mkByte ((a.val / 4) * 4 + ((a.val % 4) * 16 + b.val / 16) / 16),
      mkByte ((((a.val % 4) * 16 + b.val / 16) % 16) * 16 + (b.val % 16) * 4 / 4)] = some [a, b]
    rw [e1, e2]
  | a :: b :: c :: rest => by
    have ha := a.isLt
    have hb := b.isLt
    have hc := c.isLt
    have e1 : mkByte ((a.val / 4) * 4 + ((a.val % 4) * 16 + b.val / 16) / 16) = a := by
      apply Fin.eq_of_val_eq
      simp only [mkByte]
      omega
    have e2 : mkByte ((((a.val % 4) * 16 + b.val / 16) % 16) * 16
        + ((b.val % 16) * 4 + c.val / 64) / 4) = b := by
      apply Fin.eq_of_val_eq
      simp only [mkByte]
      omega
    have e3 : mkByte ((((b.val % 16) * 4 + c.val / 64) % 4) * 64 + c.val % 64) = c := by
      apply Fin.eq_of_val_eq
      simp only [mkByte]
      omega
    rw [b64Encode, b64DecodeGroups, b64Val_b64Char (by omega), b64Val_b64Char (by omega)]
    show (if b64Char (c.val % 64) = '=' then _ else _) = _
    rw [if_neg (b64Char_ne_eq (by omega))]
    rw [b64Val_b64Char (by omega), b64Val_b64Char (by omega),
      b64DecodeGroups_b64Encode rest]
    show some (mkByte ((a.val / 4) * 4 + ((a.val % 4) * 16 + b.val / 16) / 16)
      :: mkByte ((((a.val % 4) * 16 + b.val / 16) % 16) * 16
        + ((b.val % 16) * 4 + c.val / 64) / 4)
      :: mkByte ((((b.val % 16) * 4 + c.val / 64) % 4) * 64 + c.val % 64) :: rest)
      = some (a :: b :: c :: rest)
    rw [e1, e2, e3]

/-- Base64 decoding inverts base64 encoding. -/
theorem b64Decode_b64Encode (bs : List Byte) : b64Decode (b64Encode bs) = some bs := by
  rw [b64Decode, b64Encode_filter, b64DecodeGroups_b64Encode]

/-- The executable sortedness check implies the `Pairwise` invariant. -/
theorem keysSortedb_MapWF : ∀ m : List (String × Value), keysSortedb m = true → MapWF m
  | [] => fun _ => by simp [MapWF]
  | [p] => fun _ => by simp [MapWF]
  | (k1, v1) :: (k2, v2) :: rest => fun h => by
    rw [keysSortedb, Bool.and_eq_true] at h
    have h2 := keysSortedb_MapWF ((k2, v2) :: rest) h.2
    simp only [MapWF, List.pairwise_cons] at h2 ⊢
    refine ⟨?_, h2⟩
    intro p hp
    rcases List.mem_cons.mp hp with rfl | hp
    · exact h.1
    · exact strLtb_trans h.1 (h2.1 p hp)

/-- Every serialized value opens with the `value` start tag. -/
theorem serializeValue_head (v : Value) :
    ∃ tl, serializeValue v = Event.start "value" :: tl := by
  cases v <;> exact ⟨_, rfl⟩

mutual

/-- The fuel requirement of a value is below its serialized length. -/
theorem fuelF_le_length : ∀ v : Value, fuelF v + 1 ≤ (serializeValue v).length
  | .Int _ => by simp [fuelF, serializeValue]
  | .Int64 _ => by simp [fuelF, serializeValue]
  | .Bool _ => by simp [fuelF, serializeValue]
  | .String _ => by simp [fuelF, serializeValue]
  | .Double _ => by simp [fuelF, serializeValue]
  | .DateTime _ => by simp [fuelF, serializeValue]
  | .Base64 _ => by simp [fuelF, serializeValue]
  | .Nil => by simp [fuelF, serializeValue]
  | .Array vs => by
    have h := fuelL_le_length vs
    simp only [fuelF, serializeValue, List.length_cons, List.length_append]
    simp at h ⊢
    omega
  | .Struct ms => by
    have h := fuelM_le_length ms
    simp only [fuelF, serializeValue, List.length_cons, List.length_append]
    simp at h ⊢
    omega

/-- The fuel requirement of array items is bounded by their length. -/
theorem fuelL_le_length : ∀ vs : List Value, fuelL vs ≤ (serializeItems vs).length + 1
  | [] => by simp [fuelL, serializeItems]
  | v :: vs => by
    have h1 := fuelF_le_length v
    have h2 := fuelL_le_length vs
    simp only [fuelL, serializeItems, List.length_append]
    omega

/-- The fuel requirement of struct members is bounded by their length. -/
theorem fuelM_le_length : ∀ ms : List (String × Value),
    fuelM ms ≤ (serializeMembers ms).length + 1
  | [] => by simp [fuelM, serializeMembers]
  | (k, v) :: ms => by
    have h1 := fuelF_le_length v
    have h2 := fuelM_le_length ms
    simp only [fuelM, serializeMembers, List.length_cons, List.length_append]
    omega

end

mutual

/-- Parsing inverts serialization for one well-formed value within the
depth bound, leaving the remaining stream untouched. -/
theorem parse_serializeValue : ∀ (v : Value) (depth fuel : Nat) (rest : List Event),
    fuelF v ≤ fuel → depth + vdepth v ≤ DEPTH_LIMIT → valueWF v = true →
    parseValue depth fuel (serializeValue v ++ rest) = .ok (v, rest)
  | .Int i, depth, fuel, rest => fun hfuel hdepth hwf => by
    obtain ⟨f, rfl⟩ : ∃ f, fuel = f + 1 := ⟨fuel - 1, by simp [fuelF] at hfuel; omega⟩
    simp only [valueWF, Bool.and_eq_true, decide_eq_true_eq] at hwf
    have hr : -(2147483648 : Int) ≤ i ∧ i < 2147483648 := by omega
    simp only [serializeValue, List.cons_append, List.nil_append, parseValue]
    rw [if_neg (by decide), if_neg (by decide)]
    simp [parseScalarTagged, parseScalarBody, string_data_mk, parseIntText_encodeInt,
      hr.1, hr.2]
  | .Int64 i, depth, fuel, rest => fun hfuel hdepth hwf => by
    obtain ⟨f, rfl⟩ : ∃ f, fuel = f + 1 := ⟨fuel - 1, by simp [fuelF] at hfuel; omega⟩
    simp only [valueWF, Bool.and_eq_true, decide_eq_true_eq] at hwf
    have hr : -(9223372036854775808 : Int) ≤ i ∧ i < 9223372036854775808 := by omega
    simp only [serializeValue, List.cons_append, List.nil_append, parseValue]
    rw [if_neg (by decide), if_neg (by decide)]
    simp [parseScalarTagged, parseScalarBody, string_data_mk, parseIntText_encodeInt,
      hr.1, hr.2]
  | .Bool b, depth, fuel, rest => fun hfuel hdepth hwf => by
    obtain ⟨f, rfl⟩ : ∃ f, fuel = f + 1 := ⟨fuel - 1, by simp [fuelF] at hfuel; omega⟩
    simp only [serializeValue, List.cons_append, List.nil_append, parseValue]
    rw [if_neg (by decide), if_neg (by decide)]
    cases b <;> rfl
  | .String s, depth, fuel, rest => fun hfuel hdepth hwf => by
    obtain ⟨f, rfl⟩ : ∃ f, fuel = f + 1 := ⟨fuel - 1, by simp [fuelF] at hfuel; omega⟩
    simp only [serializeValue, List.cons_append, List.nil_append, parseValue]
    rw [if_neg (by decide), if_neg (by decide)]
    simp [parseScalarTagged, parseScalarBody]
  | .Double d, depth, fuel, rest => fun hfuel hdepth hwf => by
    obtain ⟨f, rfl⟩ : ∃ f, fuel = f + 1 := ⟨fuel - 1, by simp [fuelF] at hfuel; omega⟩
    simp only [serializeValue, List.cons_append, List.nil_append, parseValue]
    rw [if_neg (by decide), if_neg (by decide)]
    simp [parseScalarTagged, parseScalarBody, string_data_mk, parseF64Text_encodeF64]
  | .DateTime dt, depth, fuel, rest => fun hfuel hdepth hwf => by
    obtain ⟨f, rfl⟩ : ∃ f, fuel = f + 1 := ⟨fuel - 1, by simp [fuelF] at hfuel; omega⟩
    simp only [serializeValue, List.cons_append, List.nil_append, parseValue]
    rw [if_neg (by decide), if_neg (by decide)]
    simp [parseScalarTagged, parseScalarBody, string_data_mk,
      parseDateTimeText_encodeDateTime]
  | .Base64 bs, depth, fuel, rest => fun hfuel hdepth hwf => by
    obtain ⟨f, rfl⟩ : ∃ f, fuel = f + 1 := ⟨fuel - 1, by simp [fuelF] at hfuel; omega⟩
    simp only [serializeValue, List.cons_append, List.nil_append, parseValue]
    rw [if_neg (by decide), if_neg (by decide)]
    simp [parseScalarTagged, parseScalarBody, string_data_mk, b64Decode_b64Encode]
  | .Nil, depth, fuel, rest => fun hfuel hdepth hwf => by
    obtain ⟨f, rfl⟩ : ∃ f, fuel = f + 1 := ⟨fuel - 1, by simp [fuelF] at hfuel; omega⟩
    simp only [serializeValue, List.cons_append, List.nil_append, parseValue]
    rw [if_neg (by decide), if_neg (by decide)]
    rfl
  | .Array vs, depth, fuel, rest => fun hfuel hdepth hwf => by
    obtain ⟨f, rfl⟩ : ∃ f, fuel = f + 1 := ⟨fuel - 1, by simp [fuelF] at hfuel; omega⟩
    simp only [fuelF] at hfuel
    simp only [vdepth] at hdepth
    simp only [valueWF] at hwf
    have hd64 : depth + (1 + ldepth vs) ≤ 64 := hdepth
    have IH : ∀ rest2,
        parseItems (depth + 1) f (serializeItems vs ++ Event.stop "data" :: rest2)
          = .ok (vs, rest2) :=
      fun rest2 => parse_serializeItems vs (depth + 1) f rest2 (by omega) (by omega) hwf
    simp only [serializeValue, List.cons_append, List.append_assoc, List.nil_append]
    simp only [parseValue]
    simp only [if_true]
    rw [if_neg (by simp only [DEPTH_LIMIT]; omega)]
    rw [IH (Event.stop "array" :: Event.stop "value" :: rest)]
    rfl
  | .Struct ms, depth, fuel, rest => fun hfuel hdepth hwf => by
    obtain ⟨f, rfl⟩ : ∃ f, fuel = f + 1 := ⟨fuel - 1, by simp [fuelF] at hfuel; omega⟩
    simp only [fuelF] at hfuel
    simp only [vdepth] at hdepth
    simp only [valueWF, Bool.and_eq_true] at hwf
    have hd64 : depth + (1 + mdepth ms) ≤ 64 := hdepth
    have IH : ∀ rest2,
        parseMembers (depth + 1) f (serializeMembers ms ++ Event.stop "struct" :: rest2)
          = .ok (ms, rest2) :=
      fun rest2 => parse_serializeMembers ms (depth + 1) f rest2 (by omega) (by omega) hwf.2
    simp only [serializeValue, List.cons_append, List.append_assoc, List.nil_append]
    simp only [parseValue]
    rw [if_neg (by decide)]
    simp only [if_true]
    rw [if_neg (by simp only [DEPTH_LIMIT]; omega)]
    rw [IH (Event.stop "value" :: rest)]
    show Except.ok (Value.Struct (mapFromList ms), rest) = Except.ok (Value.Struct ms, rest)
    rw [mapFromList_sorted ms (keysSortedb_MapWF ms hwf.1)]

/-- Parsing inverts serialization for the elements of an array. -/
theorem parse_serializeItems : ∀ (vs : List Value) (depth fuel : Nat) (rest : List Event),
    fuelL vs ≤ fuel → depth + ldepth vs ≤ DEPTH_LIMIT → itemsWF vs = true →
    parseItems depth fuel (serializeItems vs ++ Event.stop "data" :: rest) = .ok (vs, rest)
  | [], depth, fuel, rest => fun hfuel hdepth hwf => by
    obtain ⟨f, rfl⟩ : ∃ f, fuel = f + 1 := ⟨fuel - 1, by simp [fuelL] at hfuel; omega⟩
    simp only [serializeItems, List.nil_append]
    simp only [parseItems]
  | v :: vs, depth, fuel, rest => fun hfuel hdepth hwf => by
    obtain ⟨f, rfl⟩ : ∃ f, fuel = f + 1 := ⟨fuel - 1, by simp [fuelL] at hfuel; omega⟩
    simp only [fuelL] at hfuel
    simp only [ldepth] at hdepth
    simp only [itemsWF, Bool.and_eq_true] at hwf
    have hmax1 : vdepth v ≤ max (vdepth v) (ldepth vs) := Nat.le_max_left _ _
    have hmax2 : ldepth vs ≤ max (vdepth v) (ldepth vs) := Nat.le_max_right _ _
    have IHv : ∀ rest2, parseValue depth f (serializeValue v ++ rest2) = .ok (v, rest2) :=
      fun rest2 => parse_serializeValue v depth f rest2 (by omega) (by omega) hwf.1
    have IHl : ∀ rest2,
        parseItems depth f (serializeItems vs ++ Event.stop "data" :: rest2)
          = .ok (vs, rest2) :=
      fun rest2 => parse_serializeItems vs depth f rest2 (by omega) (by omega) hwf.2
    simp only [serializeItems, List.append_assoc]
    obtain ⟨tl, htl⟩ := serializeValue_head v
    rw [htl, List.cons_append]
    simp only [parseItems]
    rw [← List.cons_append, ← htl]
    simp only [IHv, IHl]

/-- Parsing inverts serialization for the members of a struct. -/
theorem parse_serializeMembers : ∀ (ms : List (String × Value)) (depth fuel : Nat)
    (rest : List Event),
    fuelM ms ≤ fuel → depth + mdepth ms ≤ DEPTH_LIMIT → membersWF ms = true →
    parseMembers depth fuel (serializeMembers ms ++ Event.stop "struct" :: rest)
      = .ok (ms, rest)
  | [], depth, fuel, rest => fun hfuel hdepth hwf => by
    obtain ⟨f, rfl⟩ : ∃ f, fuel = f + 1 := ⟨fuel - 1, by simp [fuelM] at hfuel; omega⟩
    simp only [serializeMembers, List.nil_append]
    simp only [parseMembers]
  | (k, v) :: ms, depth, fuel, rest => fun hfuel hdepth hwf => by
    obtain ⟨f, rfl⟩ : ∃ f, fuel = f + 1 := ⟨fuel - 1, by simp [fuelM] at hfuel; omega⟩
    simp only [fuelM] at hfuel
    simp only [mdepth] at hdepth
    simp only [membersWF, Bool.and_eq_true] at hwf
    have hmax1 : vdepth v ≤ max (vdepth v) (mdepth ms) := Nat.le_max_left _ _
    have hmax2 : mdepth ms ≤ max (vdepth v) (mdepth ms) := Nat.le_max_right _ _
    have IHv : ∀ rest2, parseValue depth f (serializeValue v ++ rest2) = .ok (v, rest2) :=
      fun rest2 => parse_serializeValue v depth f rest2 (by omega) (by omega) hwf.1
    have IHm : ∀ rest2,
        parseMembers depth f (serializeMembers ms ++ Event.stop "struct" :: rest2)
          = .ok (ms, rest2) :=
      fun rest2 => parse_serializeMembers ms depth f rest2 (by omega) (by omega) hwf.2
    simp only [serializeMembers, List.cons_append, List.append_assoc]
    simp only [parseMembers]
    simp only [IHv, IHm]

end

/-- C2: deserializing the serialization of any constructible value whose
nesting stays within the depth bound yields the value back
(struct members are held in the canonical key-sorted map, so map
equality is exactly per-key/value equality; array order is preserved
exactly). -/
theorem roundtrip_deserialize_serialize (v : Value) (hwf : valueWF v = true)
    (hdepth : vdepth v ≤ DEPTH_LIMIT) : deserialize (serializeValue v) = .ok v := by
  rw [deserialize]
  have hlen := fuelF_le_length v
  have h := parse_serializeValue v 0 ((serializeValue v).length + 1) []
    (by omega) (by omega) hwf
  rw [List.append_nil] at h
  rw [h]

/-- C2 witness: a struct holding an int and a nested array of a string
and a bool round-trips. -/
theorem roundtrip_deserialize_serialize_witness :
    valueWF (Value.Struct [("a", Value.Int 1),
      ("b", Value.Array [Value.String "2", Value.Bool true])]) = true ∧
    vdepth (Value.Struct [("a", Value.Int 1),
      ("b", Value.Array [Value.String "2", Value.Bool true])]) ≤ DEPTH_LIMIT ∧
    deserialize (serializeValue (Value.Struct [("a", Value.Int 1),
      ("b", Value.Array [Value.String "2", Value.Bool true])]))
      = .ok (Value.Struct [("a", Value.Int 1),
        ("b", Value.Array [Value.String "2", Value.Bool true])]) :=
  ⟨by decide, by decide,
   roundtrip_deserialize_serialize _ (by decide) (by decide)⟩
